import Mathlib

/-!
Verification of the prime-pipeline notebook
(`docs/docs-resources/Notebooks/Courses/Applications/04_0_IPC_and_Locking.py`)
and of the build helper `project-scripts/prepare-notebooks.py`.

The Python code is shallowly embedded: pure functions become Lean functions on
`Nat`/`Int`/`List`, Python `range`/slicing get explicit models, fallible code
returns `Except`, and string manipulation is modelled on `List Char`.
-/

/-- Python exception values reached by the embedded code. -/
inductive PyErr where
  | nameError : String → PyErr
  | valueError : String → PyErr
deriving DecidableEq

instance {ε α : Type} [DecidableEq ε] [DecidableEq α] : DecidableEq (Except ε α) := fun x y =>
  match x, y with
  | Except.ok a, Except.ok b =>
    if h : a = b then isTrue (by rw [h]) else isFalse (by simp [h])
  | Except.error e, Except.error f =>
    if h : e = f then isTrue (by rw [h]) else isFalse (by simp [h])
  | Except.ok _, Except.error _ => isFalse (by simp)
  | Except.error _, Except.ok _ => isFalse (by simp)

namespace IPC

/-- Python `range(start, stop, step)` for a positive `step` over naturals:
the arithmetic progression `start, start+step, ...` strictly below `stop`.
The length formula is the usual ceiling division `⌈(stop-start)/step⌉`,
which truncated subtraction sends to `0` whenever `stop ≤ start`. -/
def pyRangeP (start stop step : ℕ) : List ℕ :=
  List.range' start ((stop - start + step - 1) / step) step

/-- Length of Python `range(start, stop, step)` over integers, for `step ≠ 0`:
`max 0 ⌈(stop-start)/step⌉` for positive steps and symmetrically for negative
ones (`Int.toNat` clamps the empty cases to `0`). -/
def pyRangeZLen (start stop step : ℤ) : ℕ :=
  if 0 < step then ((stop - start).toNat + step.toNat - 1) / step.toNat
  else ((start - stop).toNat + (-step).toNat - 1) / (-step).toNat

/-- Python `range(start, stop, step)` over integers.  CPython raises
`ValueError: range() arg 3 must not be zero` when `step = 0`. -/
def pyRangeZ (start stop step : ℤ) : Except PyErr (List ℤ) :=
  if step = 0 then Except.error (PyErr.valueError ("range() arg 3 must not be zero"))
  else Except.ok ((List.range (pyRangeZLen start stop step)).map (fun k => start + step * k))

/-- Python slice `lst[i:j]` for nonnegative bounds, the only case the embedded
code evaluates (in `chunks` the slice is `lst[i:i+n]` with `i ≥ 0` drawn from a
nonempty `range`, which forces `n > 0`): both ends are clamped to the list. -/
def pySlice {α : Type} (lst : List α) (i j : ℤ) : List α :=
  (lst.drop i.toNat).take (j.toNat - i.toNat)

/-- Executable integer square root: the largest `k` with `k * k ≤ n`, computed
by a scan so that the kernel can evaluate it (`Nat.sqrt` itself is defined by
well-founded recursion and does not reduce).  `isqrt_eq_sqrt` below proves it
equal to `Nat.sqrt`. -/
def isqrt (n : ℕ) : ℕ :=
  (((List.range (n + 1)).filter (fun k => decide (k * k ≤ n))).length) - 1

/-- Loop of `check_prime` (04_0_IPC_and_Locking.py, lines 73-76): scan the
candidate divisors in order and return `False` on the first divisor found,
`True` if the loop completes. -/
def trialLoop (n : ℕ) : List ℕ → Bool
  | [] => true
  | i :: rest => if n % i = 0 then false else trialLoop n rest

/-- `check_prime` from 04_0_IPC_and_Locking.py lines 71-77 (the identical
definition also appears in 05_0_Distributed_models.py):

```python
def check_prime(n):
    if n % 2 == 0:
        return False
    for i in range(3, int(math.sqrt(n)) + 1, 2):
        if n % i == 0:
            return False
    return True
```

`int(math.sqrt(n))` is modelled as the exact integer square root `isqrt n`
(equal to `Nat.sqrt n`; the float computation agrees with it wherever the
double-precision square root is exact, in particular on every argument the
course material feeds the function). -/
def check_prime (n : ℕ) : Bool :=
  if n % 2 = 0 then false
  else trialLoop n (pyRangeP 3 (isqrt n + 1) 2)

/-- `chunks` from 04_0_IPC_and_Locking.py lines 87-90, for a positive chunk
size `n` (the integer-step error behaviour lives in `chunksE`):

```python
def chunks(lst, n):
    """Yield successive n-sized chunks from lst."""
    for i in range(0, len(lst), n):
        yield lst[i:i + n]
```

The generator is pure, so the stream of yielded chunks is modelled as the
list of slices in yield order. -/
def chunks {α : Type} (lst : List α) (n : ℕ) : List (List α) :=
  (pyRangeP 0 lst.length n).map (fun i => (lst.drop i).take n)

/-- `chunks` with full Python `range` semantics for an arbitrary integer chunk
size: `range(0, len(lst), n)` raises `ValueError` for `n = 0` (on the first
advancement of the generator) and is empty for `n < 0`, in which case the
generator yields nothing and raises nothing. -/
def chunksE {α : Type} (lst : List α) (n : ℤ) : Except PyErr (List (List α)) :=
  (pyRangeZ 0 lst.length n).map (fun idxs => idxs.map (fun i => pySlice lst i (i + n)))

/-- Modelled from the spec: the notebook leaves `find_prime_worker` and
`calculate_primes` as exercises (`primes_found = ...` and
`def calculate_primes(ncores,N,chunksize): ...`), so the dispatcher/collector
`find_primes` of spec §4.5/§6 is assembled from the notebook's own recipe
(04_0_IPC_and_Locking.py, "The main process", lines 186-199): feed the input
queue with all chunks of `chunks(range(1,N), chunksize)`, have each worker
keep the elements of its chunk that pass `check_prime` (the function the
notebook revives for exactly this purpose), and collect the per-chunk result
batches.  `worker_count` only affects scheduling, i.e. the interleaving of
result batches; the batches are concatenated here in submission order, which
is one of the admissible interleavings, and every claim below about the
aggregate is order-insensitive (set membership, duplicate-freeness, or
single-batch outputs). -/
def find_primes (upper_bound chunk_size worker_count : ℕ) : List ℕ :=
  ((chunks (pyRangeP 1 upper_bound 1) chunk_size).map (List.filter check_prime)).flatten

/-- Top-level names in scope in 04_0_IPC_and_Locking.py together with the
builtins its code uses.  `chunks_rsquared`, called by `find_start_chunk`, is
defined nowhere in the repository (no other file binds it either). -/
def moduleNames : List String :=
  ["math", "check_prime", "chunks", "N", "find_start_chunk",
   "list", "range", "len", "int", "iter", "print"]

/-- Python name resolution: an identifier bound in no enclosing scope raises
`NameError` when evaluated. -/
def resolveName (env : List String) (x : String) : Except PyErr Unit :=
  if x ∈ env then Except.ok () else Except.error (PyErr.nameError x)

/-- `find_start_chunk` from 04_0_IPC_and_Locking.py lines 243-247:

```python
def find_start_chunk(lst,n):
    for i in range(2,n+1):
        res = list(chunks_rsquared(lst,int(len(lst)/i)))
        if len(res) >= n:
            return res
```

If `range(2, n+1)` is empty the loop body never runs and the function falls
off its end, returning `None`.  Otherwise the first statement of the first
iteration evaluates the identifier `chunks_rsquared`, which is bound nowhere,
so name resolution raises `NameError`; the continuation after that lookup is
unreachable and is therefore not modelled further (`Except.bind` discards it
on the error path). -/
def find_start_chunk (lst : List ℤ) (n : ℤ) : Except PyErr (Option (List (List ℤ))) :=
  if pyRangeZLen 2 (n + 1) 1 = 0 then Except.ok none
  else (resolveName moduleNames ("chunks_rsquared")).bind (fun _ => Except.ok none)

/-- State-threaded run of the `trialLoop` of `check_prime` over an arbitrary
ambient store `σ`: the loop reads nothing from and writes nothing to the
store, which the embedding makes explicit by threading it. -/
def trialLoopSt {σ : Type} (n : ℕ) : List ℕ → σ → Bool × σ
  | [], s => (true, s)
  | i :: rest, s => if n % i = 0 then (false, s) else trialLoopSt n rest s

/-- `check_prime` re-run with an explicit ambient store `σ` standing for any
shared mutable state of the host process: the claim that the function is pure
and parallel-safe is the statement that this run returns the value of the
pure `check_prime` and returns the store untouched, for every store type and
every initial store. -/
def check_prime_st {σ : Type} (n : ℕ) (s : σ) : Bool × σ :=
  if n % 2 = 0 then (false, s) else trialLoopSt n (pyRangeP 3 (isqrt n + 1) 2) s

end IPC

namespace Prep

/-- `os.sep` on the POSIX build platform of the docs site. -/
def sepChar : Char := '/'

/-- The literal `"-sol.qmd"` of prepare-notebooks.py, as characters. -/
def solSuffix : List Char := "-sol.qmd".data

/-- The literal `".qmd"` of prepare-notebooks.py, as characters. -/
def qmdSuffix : List Char := ".qmd".data

/-- The literal `"Solutions"` of prepare-notebooks.py, as characters. -/
def solutionsDir : List Char := "Solutions".data

/-- The literal `"Applications"` of prepare-notebooks.py, as characters. -/
def applicationsDir : List Char := "Applications".data

/-- Scanner of Python `str.replace(pat, rep)` on character lists, for a
nonempty `pat`.  The second argument counts characters still to be skipped
because a replaced occurrence consumed them: after a match at `c :: s` the
scan resumes at `(c :: s).drop pat.length`, i.e. skips `pat.length - 1`
characters of `s`. -/
def pyReplaceGo (pat rep : List Char) : List Char → ℕ → List Char
  | [], _ => []
  | _ :: s, k + 1 => pyReplaceGo pat rep s k
  | c :: s, 0 =>
    if pat <+: (c :: s) then rep ++ pyReplaceGo pat rep s (pat.length - 1)
    else c :: pyReplaceGo pat rep s 0

/-- Python `str.replace(pat, rep)` on character lists, for a nonempty `pat`:
replace every non-overlapping occurrence, scanning left to right. -/
def pyReplaceL (pat rep s : List Char) : List Char :=
  pyReplaceGo pat rep s 0

/-- One step of CPython `posixpath.join`: a component starting with the
separator resets the path; otherwise it is appended, inserting a separator
unless the accumulated path is empty or already ends with one. -/
def pyJoinStep (path comp : List Char) : List Char :=
  if comp.head? = some sepChar then comp
  else if path = [] ∨ path.getLast? = some sepChar then path ++ comp
  else path ++ sepChar :: comp

/-- CPython `os.path.join(p, *ps)` on POSIX: fold `pyJoinStep` over the
remaining components starting from the first (the call sites always pass at
least two components). -/
def pyJoin : List (List Char) → List Char
  | [] => []
  | p :: ps => ps.foldl pyJoinStep p

/-- `solution2app` from project-scripts/prepare-notebooks.py lines 20-30, with
`os.sep = '/'` and Python strings modelled as character lists:

```python
def solution2app(filepath):
    path_parts = filepath.split(os.sep)
    if len(path_parts) > 1 and path_parts[-2] == "Solutions":
        file_name = path_parts[-1]
        if file_name.endswith("-sol.qmd"):
            file_name = file_name.replace("-sol.qmd", ".qmd")
        return os.path.join(*path_parts[:-2], "Applications", file_name)
    else:
        return None
```

`str.split` on a single-character separator is `List.splitOn`, `[-2]`/`[-1]`
are the second-to-last/last parts (well-defined under the guard
`len(path_parts) > 1`, and `split` never returns an empty list), and `[:-2]`
drops the final two parts. -/
def solution2app (filepath : List Char) : Option (List Char) :=
  let path_parts := filepath.splitOn sepChar
  if path_parts.length > 1 ∧ path_parts.getD (path_parts.length - 2) [] = solutionsDir then
    let fn0 := path_parts.getLastD []
    let fn1 := if solSuffix <:+ fn0 then pyReplaceL solSuffix qmdSuffix fn0 else fn0
    some (pyJoin (path_parts.dropLast.dropLast ++ [applicationsDir, fn1]))
  else none

/-- A filesystem path assembled from separator-free components. -/
def pathOfParts (parts : List (List Char)) : List Char :=
  [sepChar].intercalate parts

end Prep

namespace IPC

lemma filter_range_sq (n m : ℕ) :
    (List.range m).filter (fun k => decide (k * k ≤ n)) = List.range (min m (Nat.sqrt n + 1)) := by
  induction m with
  | zero => simp
  | succ m ih =>
    rw [List.range_succ, List.filter_append, ih]
    by_cases h : m ≤ Nat.sqrt n
    · have h2 : m * m ≤ n := Nat.le_sqrt.mp h
      have hmin : min m (Nat.sqrt n + 1) = m := by omega
      have hmin2 : min (m + 1) (Nat.sqrt n + 1) = m + 1 := by omega
      simp [h2, hmin, hmin2, List.range_succ]
    · have h2 : ¬ m * m ≤ n := fun hc => h (Nat.le_sqrt.mpr hc)
      have hmin : min m (Nat.sqrt n + 1) = Nat.sqrt n + 1 := by omega
      have hmin2 : min (m + 1) (Nat.sqrt n + 1) = Nat.sqrt n + 1 := by omega
      simp [h2, hmin, hmin2]

lemma isqrt_eq_sqrt (n : ℕ) : isqrt n = Nat.sqrt n := by
  have hs : Nat.sqrt n ≤ n := Nat.sqrt_le_self n
  rw [isqrt, filter_range_sq n (n + 1), List.length_range]
  omega

lemma trialLoop_eq_true_iff (n : ℕ) (l : List ℕ) :
    trialLoop n l = true ↔ ∀ i ∈ l, n % i ≠ 0 := by
  induction l with
  | nil => simp [trialLoop]
  | cons i rest ih =>
    by_cases h : n % i = 0 <;> simp [trialLoop, h, ih]

lemma mem_oddRange (m i : ℕ) :
    i ∈ pyRangeP 3 (m + 1) 2 ↔ 3 ≤ i ∧ i ≤ m ∧ i % 2 = 1 := by
  rw [pyRangeP, List.mem_range']
  constructor
  · rintro ⟨k, hk, rfl⟩
    omega
  · rintro ⟨h3, hm, hodd⟩
    exact ⟨(i - 3) / 2, by omega, by omega⟩

lemma check_prime_eq_true_iff (n : ℕ) (h : n % 2 = 1) :
    check_prime n = true ↔ ∀ i, 3 ≤ i → i ≤ Nat.sqrt n → i % 2 = 1 → ¬ i ∣ n := by
  rw [check_prime, if_neg (by omega), isqrt_eq_sqrt, trialLoop_eq_true_iff]
  constructor
  · intro H i h3 hle hodd hdvd
    exact H i ((mem_oddRange _ _).mpr ⟨h3, hle, hodd⟩) (Nat.mod_eq_zero_of_dvd hdvd)
  · intro H i hmem h0
    obtain ⟨h3, hle, hodd⟩ := (mem_oddRange _ _).mp hmem
    exact H i h3 hle hodd (Nat.dvd_of_mod_eq_zero h0)

lemma check_prime_iff_prime (n : ℕ) (h : 3 ≤ n) :
    check_prime n = true ↔ Nat.Prime n := by
  by_cases hpar : n % 2 = 0
  · have hnp : ¬ Nat.Prime n := by
      intro hp
      rcases hp.eq_one_or_self_of_dvd 2 (Nat.dvd_of_mod_eq_zero hpar) with h1 | h2 <;> omega
    simp [check_prime, hpar, hnp]
  · have hh : n % 2 = 1 := by omega
    rw [check_prime_eq_true_iff n hh]
    constructor
    · intro H
      by_contra hnp
      have hmf := Nat.minFac_prime (show n ≠ 1 by omega)
      have hdvd := Nat.minFac_dvd n
      have hsq : Nat.minFac n ^ 2 ≤ n := Nat.minFac_sq_le_self (by omega) hnp
      have hle : Nat.minFac n ≤ Nat.sqrt n := by
        rw [pow_two] at hsq
        exact Nat.le_sqrt.mpr hsq
      have h2 : Nat.minFac n ≠ 2 := by
        intro h2
        rw [h2] at hdvd
        obtain ⟨c, rfl⟩ := hdvd
        simp [Nat.mul_mod_right] at hh
      have h3' : 3 ≤ Nat.minFac n := by
        have := hmf.two_le
        omega
      have hodd : Nat.minFac n % 2 = 1 := by
        rcases Nat.even_or_odd (Nat.minFac n) with he | ho
        · obtain ⟨c, hc⟩ := he
          have : (2 : ℕ) ∣ Nat.minFac n := ⟨c, by omega⟩
          have h2n : (2 : ℕ) ∣ n := this.trans hdvd
          obtain ⟨d, rfl⟩ := h2n
          simp [Nat.mul_mod_right] at hh
        · obtain ⟨c, hc⟩ := ho
          omega
      exact H (Nat.minFac n) h3' hle hodd hdvd
    · intro hp i h3 hle hodd hdvd
      have hi := hp.eq_one_or_self_of_dvd i hdvd
      have hlt : i < n := lt_of_le_of_lt hle (Nat.sqrt_lt_self (by omega))
      omega

lemma check_prime_true_iff (m : ℕ) (h : 1 ≤ m) :
    check_prime m = true ↔ (m = 1 ∨ (Nat.Prime m ∧ m ≠ 2)) := by
  rcases Nat.lt_or_ge m 3 with h3 | h3
  · interval_cases m
    · simp [show check_prime 1 = true from by decide]
    · simp [show check_prime 2 = false from by decide, Nat.prime_two]
  · rw [check_prime_iff_prime m h3]
    constructor
    · intro hp
      exact Or.inr ⟨hp, by omega⟩
    · rintro (rfl | ⟨hp, _⟩)
      · exact absurd h3 (by omega)
      · exact hp

lemma range'_map_shift {α : Type} (f : ℕ → α) (step : ℕ) :
    ∀ (k s d : ℕ), (List.range' (s + d) k step).map f
      = (List.range' s k step).map (fun i => f (i + d)) := by
  intro k
  induction k with
  | zero => intro s d; simp
  | succ k ih =>
    intro s d
    rw [List.range'_succ, List.range'_succ, List.map_cons, List.map_cons]
    rw [show s + d + step = (s + step) + d by omega, ih]

lemma ceilDiv_len (L n : ℕ) (hn : 1 ≤ n) (hL : 1 ≤ L) :
    (L - 0 + n - 1) / n = (L - 1) / n + 1 := by
  have hn0 : 0 < n := hn
  rw [show L - 0 + n - 1 = (L - 1) + n by omega, Nat.add_div_right _ hn0]

lemma ceilDiv_len_drop (L n : ℕ) (hn : 1 ≤ n) (hL : 1 ≤ L) :
    (L - n - 0 + n - 1) / n = (L - 1) / n := by
  have hn0 : 0 < n := hn
  rcases Nat.lt_or_ge L (n + 1) with h | h
  · have e1 : L - n - 0 + n - 1 = n - 1 := by omega
    have e2 : (n - 1) / n = 0 := Nat.div_eq_of_lt (by omega)
    have e3 : (L - 1) / n = 0 := Nat.div_eq_of_lt (by omega)
    rw [e1, e2, e3]
  · have e1 : L - n - 0 + n - 1 = (L - n - 1) + n := by omega
    have e4 : L - 1 = (L - n - 1) + n := by omega
    rw [e1, Nat.add_div_right _ hn0, e4, Nat.add_div_right _ hn0]

lemma chunks_nil {α : Type} (n : ℕ) (hn : 1 ≤ n) : chunks ([] : List α) n = [] := by
  have e1 : (([] : List α).length - 0 + n - 1) / n = 0 := by
    rw [List.length_nil]
    exact Nat.div_eq_of_lt (by omega)
  rw [chunks, pyRangeP, e1]
  rfl

lemma chunks_cons {α : Type} (lst : List α) (n : ℕ) (hn : 1 ≤ n) (hne : lst ≠ []) :
    chunks lst n = lst.take n :: chunks (lst.drop n) n := by
  have hL : 1 ≤ lst.length := List.length_pos.mpr hne
  rw [chunks, chunks, pyRangeP, pyRangeP, List.length_drop]
  rw [ceilDiv_len lst.length n hn hL, ceilDiv_len_drop lst.length n hn hL]
  rw [List.range'_succ, List.map_cons, List.drop_zero]
  congr 1
  rw [range'_map_shift]
  apply List.map_congr_left
  intro i _
  rw [List.drop_drop, Nat.add_comm i n]

lemma chunks_flatten_aux {α : Type} (n : ℕ) (hn : 1 ≤ n) :
    ∀ (L : ℕ) (lst : List α), lst.length ≤ L → (chunks lst n).flatten = lst := by
  intro L
  induction L with
  | zero =>
    intro lst h
    have h0 : lst = [] := List.eq_nil_of_length_eq_zero (by omega)
    rw [h0, chunks_nil n hn]
    rfl
  | succ L ih =>
    intro lst h
    rcases eq_or_ne lst [] with rfl | hne
    · rw [chunks_nil n hn]
      rfl
    · have hL : 1 ≤ lst.length := List.length_pos.mpr hne
      rw [chunks_cons lst n hn hne, List.flatten_cons,
        ih (lst.drop n) (by rw [List.length_drop]; omega)]
      exact List.take_append_drop n lst

lemma chunks_flat {α : Type} (lst : List α) (n : ℕ) (hn : 1 ≤ n) :
    (chunks lst n).flatten = lst :=
  chunks_flatten_aux n hn lst.length lst (le_refl _)

lemma chunks_len {α : Type} (lst : List α) (n : ℕ) :
    (chunks lst n).length = (lst.length - 0 + n - 1) / n := by
  rw [chunks, List.length_map, pyRangeP, List.length_range']

lemma chunks_getD {α : Type} (lst : List α) (n i : ℕ)
    (hi : i < (chunks lst n).length) :
    (chunks lst n).getD i [] = (lst.drop (i * n)).take n := by
  rw [chunks, pyRangeP] at hi ⊢
  rw [List.length_map] at hi
  rw [List.getD_eq_getElem _ _ (by rw [List.length_map]; exact hi)]
  rw [List.getElem_map, List.getElem_range', Nat.zero_add, Nat.mul_comm]

lemma chunks_getD_full {α : Type} (lst : List α) (n i : ℕ) (hn : 1 ≤ n)
    (hi : i + 1 < (chunks lst n).length) :
    ((chunks lst n).getD i []).length = n := by
  rw [chunks_getD lst n i (by omega), List.length_take, List.length_drop]
  have hL : 1 ≤ lst.length := by
    by_contra h0
    have hz : lst.length = 0 := by omega
    rw [chunks_len, hz, show (0 : ℕ) - 0 + n - 1 = n - 1 by omega,
      Nat.div_eq_of_lt (by omega)] at hi
    omega
  rw [chunks_len, ceilDiv_len lst.length n hn hL] at hi
  have h2 : i + 1 ≤ (lst.length - 1) / n := by omega
  have h3 : (i + 1) * n ≤ lst.length - 1 :=
    le_trans (Nat.mul_le_mul_right n h2) (Nat.div_mul_le_self _ _)
  rw [Nat.succ_mul] at h3
  have h4 : i * n + n ≤ lst.length := le_trans h3 (Nat.sub_le _ _)
  have h5 : n ≤ lst.length - i * n := Nat.le_sub_of_add_le (by rw [Nat.add_comm]; exact h4)
  exact Nat.min_eq_left h5

lemma mem_pyRange1 (N m : ℕ) : m ∈ pyRangeP 1 N 1 ↔ 1 ≤ m ∧ m < N := by
  rw [pyRangeP, List.mem_range']
  constructor
  · rintro ⟨k, hk, rfl⟩
    omega
  · rintro ⟨h1, h2⟩
    exact ⟨m - 1, by omega, by omega⟩

lemma find_primes_eq_filter (N cs nw : ℕ) (hcs : 1 ≤ cs) :
    find_primes N cs nw = (pyRangeP 1 N 1).filter check_prime := by
  rw [find_primes, ← List.filter_flatten, chunks_flat _ cs hcs]

lemma mem_find_primes (N cs nw m : ℕ) (hcs : 1 ≤ cs) :
    m ∈ find_primes N cs nw ↔ (1 ≤ m ∧ m < N ∧ check_prime m = true) := by
  rw [find_primes_eq_filter N cs nw hcs, List.mem_filter, mem_pyRange1]
  tauto

lemma find_primes_nodup (N cs nw : ℕ) (hcs : 1 ≤ cs) : (find_primes N cs nw).Nodup := by
  rw [find_primes_eq_filter N cs nw hcs, pyRangeP]
  exact List.Nodup.filter _ (List.nodup_range' _ _)

lemma trialLoopSt_eq {σ : Type} (n : ℕ) (l : List ℕ) (s : σ) :
    trialLoopSt n l s = (trialLoop n l, s) := by
  induction l with
  | nil => rfl
  | cons i rest ih => by_cases h : n % i = 0 <;> simp [trialLoopSt, trialLoop, h, ih]

end IPC

section Sanity

example : IPC.check_prime 1 = true := by decide
example : IPC.check_prime 2 = false := by decide
example : IPC.check_prime 3 = true := by decide
example : IPC.check_prime 9 = false := by decide
example : IPC.check_prime 25 = false := by decide
example : IPC.check_prime 97 = true := by decide
example : IPC.chunks [1, 2, 3, 4, 5] 2 = [[1, 2], [3, 4], [5]] := by decide
example : IPC.pyRangeP 1 6 1 = [1, 2, 3, 4, 5] := by decide
example : IPC.find_primes 10 3 2 = [1, 3, 5, 7] := by decide
example : IPC.chunksE ([1, 2, 3] : List ℤ) (-1) = Except.ok [] := by decide
example : IPC.chunksE ([1, 2, 3] : List ℤ) 2 = Except.ok [[1, 2], [3]] := by decide
example : IPC.find_start_chunk [1, 2] 1 = Except.ok none := by decide
example :
    IPC.find_start_chunk [1, 2] 3 = Except.error (PyErr.nameError ("chunks_rsquared")) := by
  decide
example :
    Prep.solution2app ("Courses/Solutions/04-sol.qmd".data)
      = some ("Courses/Applications/04.qmd".data) := by decide
example : Prep.solution2app ("Courses/Applications/04.qmd".data) = none := by decide
example : Prep.solution2app ("04-sol.qmd".data) = none := by decide

end Sanity

namespace IPC

/-- Claim C2, counterexample: `check_prime 2` returns `False` although `2` is
prime, refuting "for every integer `n ≥ 2`, `check_prime(n)` returns true if
and only if `n` is prime" at `n = 2` (the parity test `n % 2 == 0` rejects
`2` itself). -/
theorem check_prime_two_cex : check_prime 2 = false ∧ Nat.Prime 2 :=
  ⟨by decide, Nat.prime_two⟩

/-- Claim C2, amended: on all of the claimed domain except the single point
`n = 2` — that is, for every `n ≥ 3` — `check_prime n` returns `true` iff
`n` is prime, proceeding by trial division over the odd candidates up to
`⌊√n⌋` after the parity test. -/
theorem check_prime_correct_from_three (n : ℕ) (h : 3 ≤ n) :
    check_prime n = true ↔ Nat.Prime n :=
  check_prime_iff_prime n h

/-- Witness for `check_prime_correct_from_three` at `n = 7`. -/
theorem check_prime_correct_from_three_witness :
    3 ≤ 7 ∧ (check_prime 7 = true ↔ Nat.Prime 7) :=
  ⟨by decide, check_prime_correct_from_three 7 (by decide)⟩

/-- Claim C1, counterexample: with `upper_bound = 3`, `chunk_size = 1`,
`worker_count = 1` the pipeline returns `[1]`, whose underlying set is not
the set of primes in `[2, 3)`: the prime `2` is missing. -/
theorem find_primes_primes_set_cex :
    find_primes 3 1 1 = [1]
      ∧ ¬ (2 ∈ find_primes 3 1 1 ↔ (Nat.Prime 2 ∧ 2 ≤ 2 ∧ 2 < 3)) := by
  refine ⟨by decide, ?_⟩
  intro hiff
  exact absurd (hiff.mpr ⟨Nat.prime_two, le_refl 2, by omega⟩) (by decide)

/-- Claim C1, amended: for every `upper_bound ≥ 2`, `chunk_size ≥ 1`,
`worker_count ≥ 1`, the returned sequence is duplicate-free (each element
appears exactly once) and its underlying set is `{1} ∪ {p prime | p ≠ 2, p <
upper_bound}` — exactly the set accepted by the same `check_prime` test run
sequentially over `[1, upper_bound)`; it differs from the set of primes in
`[2, upper_bound)` by containing `1` and missing `2`, so the claimed equality
with a trusted naive oracle fails as stated. -/
theorem find_primes_output_characterization (N cs nw : ℕ)
    (hN : 2 ≤ N) (hcs : 1 ≤ cs) (hnw : 1 ≤ nw) :
    (find_primes N cs nw).Nodup
      ∧ ∀ m, m ∈ find_primes N cs nw ↔ (m = 1 ∨ (Nat.Prime m ∧ m ≠ 2 ∧ m < N)) := by
  refine ⟨find_primes_nodup N cs nw hcs, ?_⟩
  intro m
  rw [mem_find_primes N cs nw m hcs]
  constructor
  · rintro ⟨h1, h2, h3⟩
    rcases (check_prime_true_iff m h1).mp h3 with rfl | ⟨hp, hne⟩
    · exact Or.inl rfl
    · exact Or.inr ⟨hp, hne, h2⟩
  · rintro (rfl | ⟨hp, hne, hlt⟩)
    · exact ⟨le_refl 1, by omega, by decide⟩
    · have h2 := hp.two_le
      exact ⟨by omega, hlt, (check_prime_true_iff m (by omega)).mpr (Or.inr ⟨hp, hne⟩)⟩

/-- Witness for `find_primes_output_characterization` at
`(upper_bound, chunk_size, worker_count) = (8, 3, 2)`, membership checked at
`m = 7`. -/
theorem find_primes_output_characterization_witness :
    (find_primes 8 3 2).Nodup
      ∧ (7 ∈ find_primes 8 3 2 ↔ (7 = 1 ∨ (Nat.Prime 7 ∧ 7 ≠ 2 ∧ 7 < 8))) :=
  ⟨(find_primes_output_characterization 8 3 2 (by decide) (by decide) (by decide)).1,
   (find_primes_output_characterization 8 3 2 (by decide) (by decide) (by decide)).2 7⟩

/-- Claim C3, counterexample: at the spec's own scenario `chunk_size = 5`,
`worker_count = 2`, the run with `upper_bound = 2` returns `[1]`, not the
claimed empty sequence. -/
theorem find_primes_boundary_cex :
    find_primes 2 5 2 = [1] ∧ ([1] : List ℕ) ≠ [] :=
  ⟨by decide, by decide⟩

/-- Claim C3, amended: for every `chunk_size ≥ 1` and `worker_count ≥ 1`,
`upper_bound = 2` yields `[1]` (not `[]`), `upper_bound = 3` yields `[1]`
(not `[2]`), and `find_primes 20` has underlying set
`{1, 3, 5, 7, 11, 13, 17, 19}` — the claimed set with `1` added and `2`
removed — independent of the `chunk_size`/`worker_count` variation. -/
theorem find_primes_boundary_amended (cs nw : ℕ) (hcs : 1 ≤ cs) (hnw : 1 ≤ nw) :
    find_primes 2 cs nw = [1] ∧ find_primes 3 cs nw = [1]
      ∧ ∀ m, m ∈ find_primes 20 cs nw ↔ m ∈ ([1, 3, 5, 7, 11, 13, 17, 19] : List ℕ) := by
  refine ⟨?_, ?_, ?_⟩
  · rw [find_primes_eq_filter 2 cs nw hcs]
    decide
  · rw [find_primes_eq_filter 3 cs nw hcs]
    decide
  · intro m
    rw [find_primes_eq_filter 20 cs nw hcs,
      show (pyRangeP 1 20 1).filter check_prime = [1, 3, 5, 7, 11, 13, 17, 19] from by decide]

/-- Witness for `find_primes_boundary_amended` at `chunk_size = 5`,
`worker_count = 2`, membership checked at `m = 3`. -/
theorem find_primes_boundary_amended_witness :
    find_primes 2 5 2 = [1] ∧ find_primes 3 5 2 = [1]
      ∧ (3 ∈ find_primes 20 5 2 ↔ 3 ∈ ([1, 3, 5, 7, 11, 13, 17, 19] : List ℕ)) :=
  ⟨(find_primes_boundary_amended 5 2 (by decide) (by decide)).1,
   (find_primes_boundary_amended 5 2 (by decide) (by decide)).2.1,
   (find_primes_boundary_amended 5 2 (by decide) (by decide)).2.2 3⟩

/-- Claim C4: for every list and every chunk size `n ≥ 1`, concatenating all
chunks yielded by `chunks lst n`, in yielded order, reconstructs `lst`
exactly — no element missing, duplicated, or reordered, no gaps or
overlaps. -/
theorem chunks_concat_reconstructs (α : Type) (lst : List α) (n : ℕ) (h : 1 ≤ n) :
    (chunks lst n).flatten = lst :=
  chunks_flat lst n h

/-- Witness for `chunks_concat_reconstructs` on `[10, 20, 30]` with `n = 2`. -/
theorem chunks_concat_reconstructs_witness :
    1 ≤ 2 ∧ (chunks ([10, 20, 30] : List ℕ) 2).flatten = [10, 20, 30] :=
  ⟨by decide, chunks_concat_reconstructs ℕ [10, 20, 30] 2 (by decide)⟩

/-- Claim C5: for every list and every `n ≥ 1`, `chunks lst n` is a finite
sequence of contiguous sub-ranges of `lst` — the `i`-th chunk is exactly the
slice of `lst` starting at offset `i * n` — in which every chunk except
possibly the last has length exactly `n` and no chunk exceeds length `n`.
The laziness and side-effect-freedom of the Python generator are reflected in
the embedding being a pure total function of its arguments. -/
theorem chunks_shape (α : Type) (lst : List α) (n : ℕ) (h : 1 ≤ n) :
    (∀ i, i < (chunks lst n).length → (chunks lst n).getD i [] = (lst.drop (i * n)).take n)
      ∧ (∀ i, i + 1 < (chunks lst n).length → ((chunks lst n).getD i []).length = n)
      ∧ (∀ i, ((chunks lst n).getD i []).length ≤ n) := by
  refine ⟨fun i hi => chunks_getD lst n i hi, fun i hi => chunks_getD_full lst n i h hi, ?_⟩
  intro i
  rcases Nat.lt_or_ge i (chunks lst n).length with hi | hi
  · rw [chunks_getD lst n i hi, List.length_take]
    exact min_le_left _ _
  · rw [List.getD_eq_default _ _ hi]
    simp

/-- Witness for `chunks_shape` on `[10, 20, 30]` with `n = 2`. -/
theorem chunks_shape_witness :
    1 ≤ 2 ∧ (chunks ([10, 20, 30] : List ℕ) 2).getD 0 [] = [10, 20]
      ∧ ((chunks ([10, 20, 30] : List ℕ) 2).getD 0 []).length = 2
      ∧ ((chunks ([10, 20, 30] : List ℕ) 2).getD 1 []).length ≤ 2 :=
  ⟨by decide,
   Eq.trans ((chunks_shape ℕ [10, 20, 30] 2 (by decide)).1 0 (by decide)) (by decide),
   (chunks_shape ℕ [10, 20, 30] 2 (by decide)).2.1 0 (by decide),
   (chunks_shape ℕ [10, 20, 30] 2 (by decide)).2.2 1⟩

/-- Claim C6, counterexample: `chunks(lst, -1)` does not fail at all — the
underlying `range(0, len(lst), -1)` is empty, so the generator yields nothing
and raises nothing, refuting "for every chunk_size ≤ 0 the chunk generator
fails with an InvalidArgument error, raised synchronously". -/
theorem chunks_nonpositive_cex :
    chunksE ([0] : List ℤ) (-1) = Except.ok []
      ∧ (chunksE ([0] : List ℤ) (-1)).isOk = true :=
  ⟨by decide, by decide⟩

/-- Claim C6, amended: only `chunk_size = 0` fails — with the `ValueError`
coming from `range`, and only once the generator is first advanced, not
synchronously at the call site — while for every `chunk_size < 0` the
generator yields no chunks and raises no error. -/
theorem chunks_nonpositive_amended (α : Type) (lst : List α) (n : ℤ) :
    chunksE lst 0 = Except.error (PyErr.valueError ("range() arg 3 must not be zero"))
      ∧ (n < 0 → chunksE lst n = Except.ok []) := by
  constructor
  · rfl
  · intro hn
    have h1 : pyRangeZLen 0 lst.length n = 0 := by
      rw [pyRangeZLen, if_neg (by omega)]
      have h2 : ((0 : ℤ) - lst.length).toNat = 0 := by omega
      rw [h2]
      have ht : 1 ≤ (-n).toNat := by omega
      exact Nat.div_eq_of_lt (by omega)
    rw [chunksE, pyRangeZ, if_neg (by omega), h1]
    rfl

/-- Witness for `chunks_nonpositive_amended` at `lst = [0]` and `n = -2`. -/
theorem chunks_nonpositive_amended_witness :
    chunksE ([0] : List ℤ) 0
        = Except.error (PyErr.valueError ("range() arg 3 must not be zero"))
      ∧ chunksE ([0] : List ℤ) (-2) = Except.ok [] :=
  ⟨(chunks_nonpositive_amended ℤ [0] (-2)).1,
   (chunks_nonpositive_amended ℤ [0] (-2)).2 (by decide)⟩

/-- Claim C7: `check_prime` is pure and deterministic — run against an
ambient store of any type, it returns exactly the value of the pure function
`check_prime` and hands the store back unchanged; in particular any two
evaluations at the same argument agree, and no shared mutable state is read
or written. -/
theorem check_prime_pure (σ : Type) (n : ℕ) (s : σ) :
    check_prime_st n s = (check_prime n, s) := by
  rw [check_prime_st, check_prime]
  by_cases h : n % 2 = 0
  · rw [if_pos h, if_pos h]
  · rw [if_neg h, if_neg h, trialLoopSt_eq]

/-- Claim C8: `check_prime 1 = True` although `1` is not prime, and since the
pipeline recipe feeds the workers chunks of `range(1, N)`, the value `1` is
in the aggregated output for every `upper_bound ≥ 2` (whatever the chunk size
`≥ 1` and worker count). -/
theorem check_prime_one_in_pipeline :
    check_prime 1 = true ∧ ¬ Nat.Prime 1
      ∧ ∀ N cs nw : ℕ, 2 ≤ N → 1 ≤ cs → 1 ∈ find_primes N cs nw := by
  refine ⟨by decide, Nat.not_prime_one, ?_⟩
  intro N cs nw hN hcs
  rw [mem_find_primes N cs nw 1 hcs]
  exact ⟨le_refl 1, by omega, by decide⟩

/-- Witness for `check_prime_one_in_pipeline` at `N = 2`, `cs = 1`, `nw = 1`. -/
theorem check_prime_one_in_pipeline_witness :
    check_prime 1 = true ∧ ¬ Nat.Prime 1 ∧ 1 ∈ find_primes 2 1 1 :=
  ⟨check_prime_one_in_pipeline.1, check_prime_one_in_pipeline.2.1,
   check_prime_one_in_pipeline.2.2 2 1 1 (by decide) (by decide)⟩

/-- Claim C10: for every list and every `n < 2` the loop range `range(2, n+1)`
is empty and `find_start_chunk` falls through, returning `None`; for every
`n ≥ 2` the first loop iteration evaluates the name `chunks_rsquared`, which
is defined nowhere in the source, and raises `NameError`. -/
theorem find_start_chunk_behavior (lst : List ℤ) (n : ℤ) :
    (n < 2 → find_start_chunk lst n = Except.ok none)
      ∧ (2 ≤ n →
          find_start_chunk lst n = Except.error (PyErr.nameError ("chunks_rsquared"))) := by
  have hlen : pyRangeZLen 2 (n + 1) 1 = (n - 1).toNat := by
    rw [pyRangeZLen, if_pos (by norm_num)]
    have e1 : ((n + 1 : ℤ) - 2) = n - 1 := by ring
    rw [e1]
    simp
  constructor
  · intro h
    rw [find_start_chunk, if_pos (show pyRangeZLen 2 (n + 1) 1 = 0 from by rw [hlen]; omega)]
  · intro h
    rw [find_start_chunk,
      if_neg (show ¬ pyRangeZLen 2 (n + 1) 1 = 0 from by rw [hlen]; omega)]
    decide

/-- Witness for `find_start_chunk_behavior`: concrete runs at `n = 1` and
`n = 2`. -/
theorem find_start_chunk_behavior_witness :
    find_start_chunk ([] : List ℤ) 1 = Except.ok none
      ∧ find_start_chunk ([] : List ℤ) 2 = Except.error (PyErr.nameError ("chunks_rsquared")) :=
  ⟨(find_start_chunk_behavior [] 1).1 (by decide),
   (find_start_chunk_behavior [] 2).2 (by decide)⟩

end IPC

namespace Prep

lemma pyReplaceGo_skip_all (pat rep : List Char) :
    ∀ (s : List Char) (k : ℕ), s.length ≤ k → pyReplaceGo pat rep s k = [] := by
  intro s
  induction s with
  | nil => intro k _; cases k <;> rfl
  | cons c s ih =>
    intro k hk
    cases k with
    | zero => simp at hk
    | succ k => exact ih k (by simpa using hk)

lemma pyReplaceL_append_tail (pat rep : List Char) (hpat : pat ≠ []) :
    ∀ (name : List Char),
      (∀ i, i < name.length → ¬ pat <+: ((name ++ pat).drop i)) →
      pyReplaceL pat rep (name ++ pat) = name ++ rep := by
  intro name
  induction name with
  | nil =>
    intro _
    obtain ⟨c, s, rfl⟩ := List.exists_cons_of_ne_nil hpat
    rw [pyReplaceL, List.nil_append]
    rw [show pyReplaceGo (c :: s) rep (c :: s) 0
        = if (c :: s) <+: (c :: s) then
            rep ++ pyReplaceGo (c :: s) rep s ((c :: s).length - 1)
          else c :: pyReplaceGo (c :: s) rep s 0 from rfl]
    rw [if_pos (List.prefix_refl _)]
    rw [pyReplaceGo_skip_all (c :: s) rep s ((c :: s).length - 1) (by simp)]
    simp
  | cons a name ih =>
    intro h
    have h0 : ¬ pat <+: (a :: (name ++ pat)) := by
      have := h 0 (by simp)
      simpa using this
    rw [pyReplaceL]
    rw [show pyReplaceGo pat rep ((a :: name) ++ pat) 0
        = if pat <+: (a :: (name ++ pat)) then
            rep ++ pyReplaceGo pat rep (name ++ pat) (pat.length - 1)
          else a :: pyReplaceGo pat rep (name ++ pat) 0 from rfl]
    rw [if_neg h0]
    have ih2 := ih (fun i hi => by
      have hzz := h (i + 1) (by simp; omega)
      simpa [List.drop_succ_cons] using hzz)
    rw [pyReplaceL] at ih2
    rw [ih2]
    rfl

lemma getLast?_ne_sep (l : List Char) (hne : l ≠ []) (hsep : sepChar ∉ l) :
    l.getLast? ≠ some sepChar := by
  intro heq
  rw [List.getLast?_eq_getLast l hne, Option.some_inj] at heq
  exact hsep (heq ▸ List.getLast_mem hne)

lemma foldl_pyJoinStep (ps : List (List Char)) :
    ∀ acc : List Char, acc ≠ [] → acc.getLast? ≠ some sepChar →
      (∀ p ∈ ps, p ≠ [] ∧ sepChar ∉ p) →
      List.foldl pyJoinStep acc ps = acc ++ (ps.map (fun p => sepChar :: p)).flatten := by
  induction ps with
  | nil =>
    intro acc _ _ _
    simp
  | cons q ps ih =>
    intro acc hne hlast hall
    have hq := hall q (by simp)
    obtain ⟨x, q', hq'⟩ := List.exists_cons_of_ne_nil hq.1
    have hhead : ¬ q.head? = some sepChar := by
      rw [hq', List.head?_cons]
      intro hx
      rw [Option.some_inj] at hx
      exact hq.2 (by rw [hq', ← hx]; exact List.mem_cons_self x q')
    have hcond2 : ¬ (acc = [] ∨ acc.getLast? = some sepChar) := by
      rintro (h | h)
      · exact hne h
      · exact hlast h
    have hstep : pyJoinStep acc q = acc ++ sepChar :: q := by
      rw [pyJoinStep, if_neg hhead, if_neg hcond2]
    have hne' : acc ++ sepChar :: q ≠ [] := by simp
    have hlast' : (acc ++ sepChar :: q).getLast? ≠ some sepChar := by
      rw [List.getLast?_append, hq', List.getLast?_cons_cons,
        List.getLast?_eq_getLast (x :: q') (by simp), Option.or_some]
      intro hx
      rw [Option.some_inj] at hx
      exact hq.2 (by rw [hq', ← hx]; exact List.getLast_mem (by simp))
    rw [List.foldl_cons, hstep,
      ih (acc ++ sepChar :: q) hne' hlast' (fun p hp => hall p (by simp [hp]))]
    simp

lemma intercalate_sep_cons :
    ∀ (ps : List (List Char)) (p : List Char),
      [sepChar].intercalate (p :: ps) = p ++ (ps.map (fun q => sepChar :: q)).flatten := by
  intro ps
  induction ps with
  | nil =>
    intro p
    simp [List.intercalate]
  | cons q ps ih =>
    intro p
    rw [List.intercalate, List.intersperse_cons_cons, List.flatten_cons, List.flatten_cons,
      show (List.intersperse [sepChar] (q :: ps)).flatten = [sepChar].intercalate (q :: ps)
        from rfl,
      ih q]
    simp

lemma pyJoin_eq_pathOfParts (parts : List (List Char))
    (h : ∀ p ∈ parts, p ≠ [] ∧ sepChar ∉ p) :
    pyJoin parts = pathOfParts parts := by
  match parts with
  | [] => rfl
  | p :: ps =>
    have hp := h p (by simp)
    rw [show pyJoin (p :: ps) = ps.foldl pyJoinStep p from rfl,
      foldl_pyJoinStep ps p hp.1 (getLast?_ne_sep p hp.1 hp.2)
        (fun q hq => h q (by simp [hq])),
      pathOfParts, intercalate_sep_cons]

end Prep

namespace Prep

/-- Claim C9, counterexample: `str.replace` replaces every occurrence, not
just the final suffix.  For the path `Solutions/<name>-sol.qmd` with
`<name> = "a-sol.qmd"`, the claim predicts `Applications/a-sol.qmd.qmd`, but
`solution2app` returns `Applications/a.qmd.qmd`. -/
theorem solution2app_replace_cex :
    solution2app ("Solutions/a-sol.qmd-sol.qmd".data)
        = some ("Applications/a.qmd.qmd".data)
      ∧ "Applications/a.qmd.qmd".data ≠ "Applications/a-sol.qmd.qmd".data :=
  ⟨by decide, by decide⟩

/-- Claim C9, amended: if the second-to-last path component is not
`Solutions` (or there are fewer than two components), `solution2app` returns
`None`.  For a relative path `dirs/Solutions/<name>-sol.qmd` whose directory
components are nonempty and separator-free and whose file name contains
`"-sol.qmd"` only as its final suffix, it returns
`dirs/Applications/<name>.qmd` with the leading components unchanged.  (When
`"-sol.qmd"` also occurs earlier in the name, `str.replace` rewrites every
occurrence — the counterexample; an absolute path would additionally lose its
leading separator, because `os.path.join` drops the empty first component
produced by `split`.) -/
theorem solution2app_amended :
    (∀ fp : List Char,
        ((fp.splitOn sepChar).length < 2
          ∨ (fp.splitOn sepChar).getD ((fp.splitOn sepChar).length - 2) [] ≠ solutionsDir) →
        solution2app fp = none)
      ∧ ∀ (dirs : List (List Char)) (name : List Char),
          (∀ d ∈ dirs, d ≠ [] ∧ sepChar ∉ d) →
          sepChar ∉ name →
          (∀ i, i < name.length → ¬ solSuffix <+: ((name ++ solSuffix).drop i)) →
          solution2app (pathOfParts (dirs ++ [solutionsDir, name ++ solSuffix]))
            = some (pathOfParts (dirs ++ [applicationsDir, name ++ qmdSuffix])) := by
  constructor
  · intro fp h
    have hcond : ¬ ((fp.splitOn sepChar).length > 1
        ∧ (fp.splitOn sepChar).getD ((fp.splitOn sepChar).length - 2) [] = solutionsDir) := by
      rcases h with h | h
      · exact fun hc => absurd hc.1 (by omega)
      · exact fun hc => h hc.2
    simp only [solution2app]
    rw [if_neg hcond]
  · intro dirs name hd hn hocc
    set parts := dirs ++ [solutionsDir, name ++ solSuffix] with hparts
    have hnonempty : parts ≠ [] := by rw [hparts]; simp
    have hsepfree : ∀ l ∈ parts, sepChar ∉ l := by
      intro l hl
      rw [hparts] at hl
      rcases List.mem_append.mp hl with hdl | hdl
      · exact (hd l hdl).2
      · simp only [List.mem_cons, List.not_mem_nil, or_false] at hdl
        rcases hdl with rfl | rfl
        · decide
        · intro hmem
          rcases List.mem_append.mp hmem with h1 | h1
          · exact hn h1
          · exact absurd h1 (by decide)
    have hsplit : (pathOfParts parts).splitOn sepChar = parts := by
      rw [pathOfParts]
      exact List.splitOn_intercalate parts sepChar hsepfree hnonempty
    have hlen2 : parts.length = dirs.length + 2 := by rw [hparts]; simp
    have hgetD : parts.getD (parts.length - 2) [] = solutionsDir := by
      rw [hparts]
      have e : (dirs ++ [solutionsDir, name ++ solSuffix]).length - 2 = dirs.length := by simp
      rw [e, List.getD_eq_getElem?_getD, List.getElem?_append_right (le_refl dirs.length),
        Nat.sub_self]
      rfl
    have hlast : parts.getLastD [] = name ++ solSuffix := by
      rw [hparts, List.getLastD_eq_getLast?,
        show dirs ++ [solutionsDir, name ++ solSuffix]
            = (dirs ++ [solutionsDir]) ++ [name ++ solSuffix] by simp,
        List.getLast?_concat]
      rfl
    have hdrop2 : parts.dropLast.dropLast = dirs := by
      rw [hparts,
        show dirs ++ [solutionsDir, name ++ solSuffix]
            = (dirs ++ [solutionsDir]) ++ [name ++ solSuffix] by simp,
        List.dropLast_concat, List.dropLast_concat]
    have hsuffix : solSuffix <:+ name ++ solSuffix := List.suffix_append name solSuffix
    have hreplace : pyReplaceL solSuffix qmdSuffix (name ++ solSuffix) = name ++ qmdSuffix :=
      pyReplaceL_append_tail solSuffix qmdSuffix (by decide) name hocc
    simp only [solution2app]
    rw [hsplit, if_pos ⟨by rw [hlen2]; omega, hgetD⟩, hlast, if_pos hsuffix, hreplace, hdrop2]
    rw [pyJoin_eq_pathOfParts (dirs ++ [applicationsDir, name ++ qmdSuffix])]
    intro p hp
    rcases List.mem_append.mp hp with h1 | h1
    · exact hd p h1
    · simp only [List.mem_cons, List.not_mem_nil, or_false] at h1
      rcases h1 with rfl | rfl
      · exact ⟨by decide, by decide⟩
      · refine ⟨by simp [qmdSuffix], ?_⟩
        intro hmem
        rcases List.mem_append.mp hmem with h2 | h2
        · exact hn h2
        · exact absurd h2 (by decide)

/-- Witness for `solution2app_amended`: the non-`Solutions` path `a/b.qmd`
maps to `None`, and `Courses/Solutions/04-sol.qmd` maps to
`Courses/Applications/04.qmd`. -/
theorem solution2app_amended_witness :
    solution2app ("a/b.qmd".data) = none
      ∧ solution2app
          (pathOfParts (["Courses".data] ++ [solutionsDir, "04".data ++ solSuffix]))
        = some (pathOfParts (["Courses".data] ++ [applicationsDir, "04".data ++ qmdSuffix])) :=
  ⟨solution2app_amended.1 ("a/b.qmd".data) (Or.inr (by decide)),
   solution2app_amended.2 ["Courses".data] ("04".data) (by decide) (by decide) (by decide)⟩

end Prep
